import Mathlib

/-!
Verification development for the cwatch watch-table core (`src/cwatch.c`).

The C program maintains a global linked list `list_wd` of `WD_DATA` records,
each holding a kernel watch descriptor `wd`, a canonical `path`, and a list of
`LINK_DATA` symbolic-link references.  We embed the data model and the
operations `add_to_watch_list`, `watch` (breadth-first traversal), `unwatch`
(both modes), `unwatch_symbolic_link`, `list_of_referenced_path`,
`remove_orphan_watched_resources`, and the four event handlers, as pure
functions over an explicit state, and prove the claimed properties.

Modelling conventions:
  * Paths are `List Char` (the C `char *` strings, NUL-free).
  * The generic linked list (`list.c`, not part of the sources) is modelled
    from the spec: the traversal is described there as breadth-first with an
    explicit work queue, so `list_push` appends at the tail and `list_pop`
    takes the head; `list_remove` removes the designated node.
  * `inotify_add_watch` is an environment capability, modelled as a function
    `ker : Path -> Option Nat` (`none` = kernel refuses, as checked by the
    `wd == -1` branch of `add_to_watch_list`).
  * `opendir`/`readdir` are modelled by a finite association list of
    directory listings; `realpath` by a `resolve` function.
  * `malloc` failures and log messages are not modelled.
  * The unbounded C loops take explicit fuel; running out of fuel is a
    distinguished outcome, and `exit(1)` is the distinguished outcome
    `fatalExit`.
-/

namespace Cwatch

abbrev Path := List Char

/-- Mirrors the `d_type` values the C code distinguishes: `DT_DIR`, `DT_LNK`,
and everything else. -/
inductive FType where
  | dir : FType
  | lnk : FType
  | other : FType
deriving DecidableEq

/-- One `struct dirent` as the traversal sees it: a name and a type. -/
structure DirEnt where
  name : Path
  ftype : FType
deriving DecidableEq

/-- `WD_DATA`: watch descriptor, canonical path, and the list of symbolic
links (`LINK_DATA`, represented by their `path` field) referencing it. -/
structure WDData where
  wd : Nat
  path : Path
  links : List Path
deriving DecidableEq

/-- The filesystem environment: `dirs` models `opendir`/`readdir` (first
binding wins, like repeated `opendir`), `resolve` models
`resolve_real_path` (`realpath` plus the trailing slash the C code appends). -/
structure FS where
  dirs : List (Path × List DirEnt)
  resolve : Path → Option Path

/-- The global configuration of the C program: `root_path`, the
`recursive_flag` / `nosymlink_flag` switches, the compiled exclude regex
(modelled as a predicate on names) and the kernel watch capability
(`inotify_add_watch`, `none` when the kernel refuses). -/
structure Config where
  root_path : Path
  recursive_flag : Bool
  nosymlink_flag : Bool
  excluded : Path → Bool
  ker : Path → Option Nat

/-- String prefix test: `path_le a b` is true when `a` is a prefix of `b`.
This is the semantics of `strncmp(b, a, strlen(a)) == 0`. -/
def path_le : Path → Path → Bool
  | [], _ => true
  | _ :: _, [] => false
  | a :: as, b :: bs => decide (a = b) && path_le as bs

/-- `is_child_of(child, parent)` from the C code: `parent` is a string
prefix of `child` (the `strlen` guard is subsumed by the prefix test). -/
def is_child_of (child parent : Path) : Bool :=
  path_le parent child

/-- `exists(child_path, parents)` from the C code: some collected parent
path covers `child_path`. -/
def exists_in (child_path : Path) (parents : List Path) : Bool :=
  parents.any (fun parent => is_child_of child_path parent)

/-- `get_node_from_path`: index of the first entry whose `path` equals the
argument (the C code returns the node pointer; we return its position). -/
def get_node_from_path : List WDData → Path → Option Nat
  | [], _ => none
  | e :: es, p =>
    if e.path = p then some 0
    else (get_node_from_path es p).map (· + 1)

/-- `get_link_data_from_path`: scan all entries and all their links for a
link with the given path; return the owning entry's path (the C code
returns the `LINK_DATA*`; callers only test it against NULL). -/
def get_link_data_from_path : List WDData → Path → Option Path
  | [], _ => none
  | e :: es, l =>
    if e.links.contains l then some e.path
    else get_link_data_from_path es l

/-- `get_link_node_from_path`: index of the first entry owning a link node
with the given path. -/
def get_link_node_from_path : List WDData → Path → Option Nat
  | [], _ => none
  | e :: es, l =>
    if e.links.contains l then some 0
    else (get_link_node_from_path es l).map (· + 1)

/-- `list_push(wd_data->links, link_data)` on the entry at index `i`:
append the symbolic-link path to that entry's link list. -/
def attach_link : List WDData → Nat → Path → List WDData
  | [], _, _ => []
  | e :: es, 0, l => { e with links := e.links ++ [l] } :: es
  | e :: es, n + 1, l => e :: attach_link es n l

/-- `add_to_watch_list(real_path, symlink)`.  If the path has no entry yet,
ask the kernel for a watch descriptor; on refusal return NULL (`none`)
leaving the table untouched.  Otherwise create the entry.  In either case,
when a symlink argument is present, append it to the entry's link list.
Returns the node (as an index) and the new table. -/
def add_to_watch_list (cfg : Config) (st : List WDData) (real_path : Path)
    (symlink : Option Path) : Option Nat × List WDData :=
  match get_node_from_path st real_path with
  | some i =>
    match symlink with
    | some l => (some i, attach_link st i l)
    | none => (some i, st)
  | none =>
    match cfg.ker real_path with
    | none => (none, st)
    | some wd =>
      let st1 := st ++ [⟨wd, real_path, []⟩]
      match symlink with
      | some l => (some st.length, attach_link st1 st.length l)
      | none => (some st.length, st1)

/-- `opendir`: the listing bound to a path, if any. -/
def opendir (fs : FS) (p : Path) : Option (List DirEnt) :=
  (fs.dirs.find? (fun pr => pr.1 == p)).map (fun pr => pr.2)

def dotP : Path := ".".toList
def dotdotP : Path := "..".toList
def slashP : Path := "/".toList

/-- The body of the `readdir` loop of `watch` for one directory entry `d`
found in directory `p`: updates the (table, work-queue) pair. -/
def process_dirent (cfg : Config) (fs : FS) (p : Path)
    (acc : List WDData × List Path) (d : DirEnt) : List WDData × List Path :=
  if d.ftype = FType.dir ∧ cfg.excluded d.name then acc
  else if d.ftype = FType.dir ∧ d.name ≠ dotP ∧ d.name ≠ dotdotP then
    if cfg.recursive_flag then
      ((add_to_watch_list cfg acc.1 (p ++ d.name ++ slashP) none).2,
        acc.2 ++ [p ++ d.name ++ slashP])
    else acc
  else if d.ftype = FType.lnk ∧ cfg.nosymlink_flag = false then
    if (get_link_data_from_path acc.1 (p ++ d.name)).isSome then acc
    else
      match fs.resolve (p ++ d.name) with
      | none => acc
      | some real =>
        match opendir fs real with
        | none => acc
        | some _ =>
          if cfg.recursive_flag then
            ((add_to_watch_list cfg acc.1 real (some (p ++ d.name))).2,
              acc.2 ++ [real])
          else acc
  else acc

/-- Outcome of the breadth-first loop of `watch`: normal completion,
`exit(1)` on an unopenable directory, or fuel exhaustion (the loop is still
running; table and queue at that point are recorded). -/
inductive RunResult where
  | done : List WDData → RunResult
  | fatalExit : List WDData → RunResult
  | outOfFuel : List WDData → List Path → RunResult
deriving DecidableEq

/-- The `while (list->first != NULL)` loop of `watch`: pop a directory,
`opendir` it (`exit(1)` on failure), process every dirent, continue. -/
def watch_loop (cfg : Config) (fs : FS) : Nat → List WDData → List Path → RunResult
  | _, st, [] => RunResult.done st
  | 0, st, p :: q => RunResult.outOfFuel st (p :: q)
  | fuel + 1, st, p :: q =>
    match opendir fs p with
    | none => RunResult.fatalExit st
    | some ds =>
      let r := ds.foldl (process_dirent cfg fs p) (st, q)
      watch_loop cfg fs fuel r.1 r.2

/-- Outcome of `watch`: `-1` return when the initial registration fails,
otherwise the loop outcome. -/
inductive WatchOutcome where
  | errNoWatch : List WDData → WatchOutcome
  | completed : List WDData → WatchOutcome
  | fatalExit : List WDData → WatchOutcome
  | outOfFuel : List WDData → List Path → WatchOutcome
deriving DecidableEq

/-- `watch(real_path, symlink)`. -/
def watch (cfg : Config) (fs : FS) (fuel : Nat) (st : List WDData)
    (real_path : Path) (symlink : Option Path) : WatchOutcome :=
  match add_to_watch_list cfg st real_path symlink with
  | (none, st1) => WatchOutcome.errNoWatch st1
  | (some _, st1) =>
    match watch_loop cfg fs fuel st1 [real_path] with
    | RunResult.done st2 => WatchOutcome.completed st2
    | RunResult.fatalExit st2 => WatchOutcome.fatalExit st2
    | RunResult.outOfFuel st2 q => WatchOutcome.outOfFuel st2 q

/-- The watch table carried by any state of the traversal loop. -/
def runTableR : RunResult → List WDData
  | RunResult.done st => st
  | RunResult.fatalExit st => st
  | RunResult.outOfFuel st _ => st

/-- The watch table carried by any `watch` outcome. -/
def outcomeTable : WatchOutcome → List WDData
  | WatchOutcome.errNoWatch st => st
  | WatchOutcome.completed st => st
  | WatchOutcome.fatalExit st => st
  | WatchOutcome.outOfFuel st _ => st

/-- `watch` finished (returned or exited) rather than running out of fuel. -/
def watchFinished : WatchOutcome → Bool
  | WatchOutcome.errNoWatch _ => true
  | WatchOutcome.completed _ => true
  | WatchOutcome.fatalExit _ => true
  | WatchOutcome.outOfFuel _ _ => false

/-- `list_of_referenced_path(path)`: collect, in table order, the paths of
entries that still own links and are prefix-ancestors or descendants of
`path`, skipping paths already covered by a collected one. -/
def list_of_referenced_path (st : List WDData) (path : Path) : List Path :=
  st.foldl
    (fun acc e =>
      if e.links ≠ [] ∧ (path_le path e.path ∨ path_le e.path path)
          ∧ exists_in e.path acc = false
      then acc ++ [e.path] else acc)
    []

/-- `remove_orphan_watched_resources(path, references_list)`: drop every
non-root entry with no links that lies under `path` and is not covered by
the references list.  The C code removes nodes while scanning the list
once; this is a filter over the scanned snapshot. -/
def remove_orphan_watched_resources (root : Path) (st : List WDData)
    (path : Path) (refs : List Path) : List WDData :=
  st.filter
    (fun e =>
      ¬(e.path ≠ root ∧ e.links = [] ∧ is_child_of e.path path = true
        ∧ exists_in e.path refs = false))

/-- `unwatch_symbolic_link(link_node)` where the link node is the first
occurrence of `l` in the links of the entry at index `i`: remove the link;
if the entry then has no links and is not under the root, reclaim orphans
beneath its path. -/
def unwatch_symbolic_link (root : Path) (st : List WDData) (i : Nat)
    (l : Path) : List WDData :=
  match st[i]? with
  | none => st
  | some e =>
    let st1 := st.set i { e with links := e.links.erase l }
    if e.links.erase l = [] ∧ is_child_of e.path root = false then
      remove_orphan_watched_resources root st1 e.path
        (list_of_referenced_path st1 e.path)
    else st1

/-- The breadth-first loop of `unwatch(path, TRUE)`: pop a symlink path;
if it is registered, traverse the listing of its resolved target pushing
every symlink name found there, then `unwatch_symbolic_link` it. -/
def unwatch_link_loop (root : Path) (fs : FS) :
    Nat → List WDData → List Path → List WDData
  | 0, st, _ => st
  | _ + 1, st, [] => st
  | fuel + 1, st, l :: q =>
    match get_link_node_from_path st l with
    | none => unwatch_link_loop root fs fuel st q
    | some i =>
      match st[i]? with
      | none => unwatch_link_loop root fs fuel st q
      | some e =>
        match opendir fs e.path with
        | none => unwatch_link_loop root fs fuel st q
        | some ds =>
          let pushes := (ds.filter (fun d => d.ftype = FType.lnk)).map
            (fun d => e.path ++ d.name)
          unwatch_link_loop root fs fuel
            (unwatch_symbolic_link root st i l) (q ++ pushes)

/-- `unwatch(path, is_link)`. -/
def unwatch (cfg : Config) (fs : FS) (fuel : Nat) (st : List WDData)
    (path : Path) (is_link : Bool) : List WDData :=
  if is_link = false then
    match get_node_from_path st path with
    | none => st
    | some i => st.eraseIdx i
  else
    unwatch_link_loop cfg.root_path fs fuel st [path]

/-- `event_handler_create(event, path)` (the `IN_ISDIR` bit is `isDir`). -/
def event_handler_create (cfg : Config) (fs : FS) (fuel : Nat)
    (isDir : Bool) (path : Path) (st : List WDData) : List WDData :=
  if cfg.recursive_flag = false then st
  else if isDir then outcomeTable (watch cfg fs fuel st path none)
  else if cfg.nosymlink_flag = false then
    match opendir fs path with
    | none => st
    | some _ =>
      match fs.resolve path with
      | none => st
      | some real => outcomeTable (watch cfg fs fuel st real (some path))
  else st

/-- `event_handler_delete(event, path)`. -/
def event_handler_delete (cfg : Config) (fs : FS) (fuel : Nat)
    (isDir : Bool) (path : Path) (st : List WDData) : List WDData :=
  if isDir then unwatch cfg fs fuel st path false
  else if cfg.nosymlink_flag = false then unwatch cfg fs fuel st path true
  else st

/-- `event_handler_moved_from` delegates to the delete handler. -/
def event_handler_moved_from (cfg : Config) (fs : FS) (fuel : Nat)
    (isDir : Bool) (path : Path) (st : List WDData) : List WDData :=
  event_handler_delete cfg fs fuel isDir path st

/-- `event_handler_moved_to`: only destinations under the root are treated
as creations. -/
def event_handler_moved_to (cfg : Config) (fs : FS) (fuel : Nat)
    (isDir : Bool) (path : Path) (st : List WDData) : List WDData :=
  if path_le cfg.root_path path then
    event_handler_create cfg fs fuel isDir path st
  else st

/-- The operations that mutate the watch table: direct registration,
`watch`, `unwatch` (either mode), `unwatch_symbolic_link` on the owner of a
registered link, orphan reclamation as invoked by `unwatch_symbolic_link`,
and the four dispatched event handlers. -/
inductive Op where
  | register : Path → Option Path → Op
  | doWatch : Nat → Path → Option Path → Op
  | doUnwatch : Nat → Path → Bool → Op
  | unwatchSym : Path → Op
  | reclaimOrphans : Path → Op
  | evCreate : Nat → Bool → Path → Op
  | evDelete : Nat → Bool → Path → Op
  | evMovedFrom : Nat → Bool → Path → Op
  | evMovedTo : Nat → Bool → Path → Op

/-- Apply one operation to the watch table. -/
def applyOp (cfg : Config) (fs : FS) (st : List WDData) : Op → List WDData
  | Op.register p sym => (add_to_watch_list cfg st p sym).2
  | Op.doWatch fuel p sym => outcomeTable (watch cfg fs fuel st p sym)
  | Op.doUnwatch fuel p isLink => unwatch cfg fs fuel st p isLink
  | Op.unwatchSym l =>
    match get_link_node_from_path st l with
    | none => st
    | some i => unwatch_symbolic_link cfg.root_path st i l
  | Op.reclaimOrphans p =>
    remove_orphan_watched_resources cfg.root_path st p
      (list_of_referenced_path st p)
  | Op.evCreate fuel isDir p => event_handler_create cfg fs fuel isDir p st
  | Op.evDelete fuel isDir p => event_handler_delete cfg fs fuel isDir p st
  | Op.evMovedFrom fuel isDir p => event_handler_moved_from cfg fs fuel isDir p st
  | Op.evMovedTo fuel isDir p => event_handler_moved_to cfg fs fuel isDir p st

/-- Apply a sequence of operations. -/
def applyOps (cfg : Config) (fs : FS) (st : List WDData) (ops : List Op) :
    List WDData :=
  ops.foldl (applyOp cfg fs) st

/-- The canonical paths of the table's entries. -/
def paths (st : List WDData) : List Path :=
  st.map (fun e => e.path)

/-- The operations the symlink life-cycle consists of: registrations
(which may attach a link), symlink-mode unwatch, `unwatch_symbolic_link`
and orphan reclamation. -/
def symOnlyOp : Op → Bool
  | Op.register _ _ => true
  | Op.doUnwatch _ _ isLink => isLink
  | Op.unwatchSym _ => true
  | Op.reclaimOrphans _ => true
  | _ => false

/-- All symbolic-link paths registered anywhere in the table. -/
def linkPaths : List WDData → List Path
  | [] => []
  | e :: es => e.links ++ linkPaths es

/-- Every symlink occurrence the filesystem can offer to the traversal:
for each directory listing, the absolute path of each symlink dirent. -/
def allSyms (fs : FS) : List Path :=
  fs.dirs.foldr
    (fun pr acc =>
      ((pr.2.filter (fun d => d.ftype = FType.lnk)).map
        (fun d => pr.1 ++ d.name)) ++ acc)
    []

/-- Count of filesystem symlink occurrences not yet registered in the
table: the first component of the termination measure of `watch`. -/
def unreg (fs : FS) (st : List WDData) : Nat :=
  (allSyms fs).countP (fun s => decide (s ∉ linkPaths st))

/-- Length of the longest directory path the filesystem knows. -/
def maxKeyLen (fs : FS) : Nat :=
  fs.dirs.foldr (fun pr m => max pr.1.length m) 0

/-- Largest number of entries in any directory listing. -/
def maxFanout (fs : FS) : Nat :=
  fs.dirs.foldr (fun pr m => max pr.2.length m) 0

/-- Exponent bound for the queue measure. -/
def bigB (fs : FS) : Nat := maxKeyLen fs + 2

/-- Base for the queue measure: strictly more than any listing's length. -/
def bigW (fs : FS) : Nat := maxFanout fs + 2

/-- Weight of one queued path: decreases when the traversal descends. -/
def weight (fs : FS) (p : Path) : Nat :=
  bigW fs ^ (bigB fs - p.length)

/-- Total weight of the work queue: the second component of the
termination measure of `watch`. -/
def qweight (fs : FS) (q : List Path) : Nat :=
  (q.map (weight fs)).sum

/-- Formalised from the spec's words for the orphan-reclamation claim: the
referenced-path set is the set of canonical paths of every entry that
still has at least one live symlink reference and is an ancestor or
descendant (by path prefix) of `q`. -/
def spec_referenced_paths (st : List WDData) (q : Path) : List Path :=
  (st.filter (fun e => e.links ≠ [] ∧ (path_le q e.path ∨ path_le e.path q))).map
    (fun e => e.path)

/-- Formalised from the spec's words: an entry is released exactly when it
is a descendant of the unwatched entry's path `q`, has no live symlink
reference, is not the root, and is not equal to or a descendant of any
path in the referenced-path set. -/
def spec_released (root q : Path) (refs : List Path) (e : WDData) : Bool :=
  decide (e.path ≠ root) && decide (e.links = []) && is_child_of e.path q
    && !(refs.any (fun r => is_child_of e.path r))

/- Concrete instances used by the per-claim counterexamples, failing-input
evaluations and witnesses. -/

/-- The root path used by the concrete scenarios. -/
def rootR : Path := "/r/".toList

/-- A configuration whose kernel always grants watch descriptors. -/
def cfgOk : Config :=
  ⟨rootR, true, false, fun _ => false, fun _ => some 7⟩

/-- A small filesystem: the root contains one subdirectory `d`. -/
def fsRd : FS :=
  ⟨[(rootR, [⟨"d".toList, FType.dir⟩]), (rootR ++ "d".toList ++ slashP, [])],
    fun _ => none⟩

/-- A filesystem where the root's subdirectory `d` has no listing, so the
traversal's `opendir` fails on it. -/
def fsNoD : FS := ⟨[(rootR, [⟨"d".toList, FType.dir⟩])], fun _ => none⟩

/-- Table with the root watched plus two out-of-root entries `/a/` and
`/a/b/` with no symlink references. -/
def stAB : List WDData :=
  [⟨1, rootR, []⟩, ⟨2, "/a/".toList, []⟩, ⟨3, "/a/b/".toList, []⟩]

/-- An out-of-root entry `/t/` registered through symlink `/r/s`. -/
def stT : List WDData := [⟨1, "/t/".toList, ["/r/s".toList]⟩]

/-- Filesystem where the root contains a symlink `s` resolving to the
already-watched directory `/t/`. -/
def fsLinkT : FS :=
  ⟨[(rootR, [⟨"s".toList, FType.lnk⟩]), ("/t/".toList, [])],
    fun p => if p = rootR ++ "s".toList then some "/t/".toList else none⟩

/-- Out-of-root subtree kept alive by two symlinks: `/a/` via `/r/s`, and
its descendant `/a/c/` via `/r/t`; `/a/b/` and `/a/c/d/` have no links of
their own. -/
def stU : List WDData :=
  [⟨1, rootR, []⟩, ⟨2, "/a/".toList, ["/r/s".toList]⟩, ⟨3, "/a/b/".toList, []⟩,
    ⟨4, "/a/c/".toList, ["/r/t".toList]⟩, ⟨5, "/a/c/d/".toList, []⟩]

/-- First directory of the failing-registration cycle. -/
def pX1 : Path := "/x1/".toList

/-- Second directory of the failing-registration cycle. -/
def pX2 : Path := "/x2/".toList

/-- A kernel that grants a watch for the root only and refuses `/x1/` and
`/x2/` (for instance because the watch limit is reached). -/
def cfgCyc : Config :=
  ⟨rootR, true, false, fun _ => false,
    fun p => if p = rootR then some 1 else none⟩

/-- The root contains symlink `c -> /x1/`; `/x1/` contains `a -> /x2/`;
`/x2/` contains `b -> /x1/`.  All three directories open fine. -/
def fsCyc : FS :=
  ⟨[(rootR, [⟨"c".toList, FType.lnk⟩]), (pX1, [⟨"a".toList, FType.lnk⟩]),
      (pX2, [⟨"b".toList, FType.lnk⟩])],
    fun p =>
      if p = rootR ++ "c".toList then some pX1
      else if p = pX1 ++ "a".toList then some pX2
      else if p = pX2 ++ "b".toList then some pX1 else none⟩

/-- The table after `watch` registers the root under `cfgCyc`. -/
def stCyc : List WDData := [⟨1, rootR, []⟩]

/-- An out-of-root entry `/t/` with no symlink reference yet. -/
def stT0 : List WDData := [⟨1, "/t/".toList, []⟩]

/-- Initial table used by the uniqueness witness: the root is watched. -/
def stW1 : List WDData := [⟨1, rootR, []⟩]

/-- A mixed operation sequence used by the uniqueness witness. -/
def opsW1 : List Op :=
  [Op.register "/a/".toList none, Op.doWatch 5 rootR none,
    Op.evCreate 4 true (rootR ++ "d".toList ++ slashP),
    Op.doUnwatch 2 "/a/".toList false]

/-- A symlink-only operation sequence used by the root-permanence
witness: add a link, reclaim through it, then reclaim the rest. -/
def opsW2 : List Op :=
  [Op.register "/t/".toList (some ("/r/s".toList)), Op.unwatchSym "/r/s".toList,
    Op.doUnwatch 3 "/r/s".toList true, Op.reclaimOrphans "/a/".toList]

/-- A directory whose listing holds only a plain file: a traversal of it
registers nothing further. -/
def pFlat : Path := "/p/".toList

/-- Filesystem binding `/p/` to a listing with a single non-directory,
non-symlink entry. -/
def fsFlat : FS := ⟨[(pFlat, [⟨"f".toList, FType.other⟩])], fun _ => none⟩

/-- The traversal loop has actually stopped (normal completion or
`exit(1)`) rather than run out of fuel. -/
def runFinished : RunResult → Bool
  | RunResult.done _ => true
  | RunResult.fatalExit _ => true
  | RunResult.outOfFuel _ _ => false

/-! ### Basic lemmas about paths and table lookups -/

theorem path_le_refl (p : Path) : path_le p p = true := by
  induction p with
  | nil => rfl
  | cons a as ih => simp [path_le, ih]

theorem path_le_trans {a b c : Path} (hab : path_le a b = true)
    (hbc : path_le b c = true) : path_le a c = true := by
  induction a generalizing b c with
  | nil => rfl
  | cons x xs ih =>
    cases b with
    | nil => simp [path_le] at hab
    | cons y ys =>
      cases c with
      | nil => simp [path_le] at hbc
      | cons z zs =>
        simp only [path_le, Bool.and_eq_true, decide_eq_true_eq] at hab hbc ⊢
        exact ⟨hab.1.trans hbc.1, ih hab.2 hbc.2⟩

theorem path_le_append (p q : Path) : path_le p (p ++ q) = true := by
  induction p with
  | nil => rfl
  | cons a as ih => simp [path_le, ih]

theorem is_child_of_trans {x y z : Path} (hxy : is_child_of x y = true)
    (hyz : is_child_of y z = true) : is_child_of x z = true :=
  path_le_trans hyz hxy

theorem exists_in_append (x : Path) (l1 l2 : List Path) :
    exists_in x (l1 ++ l2) = (exists_in x l1 || exists_in x l2) := by
  simp [exists_in, List.any_append]

theorem exists_in_eq_true {x : Path} {l : List Path} :
    exists_in x l = true ↔ ∃ r ∈ l, is_child_of x r = true := by
  simp [exists_in, List.any_eq_true]

theorem get_node_from_path_eq_none {st : List WDData} {p : Path} :
    get_node_from_path st p = none ↔ p ∉ paths st := by
  induction st with
  | nil => simp [get_node_from_path, paths]
  | cons e es ih =>
    simp only [get_node_from_path, paths, List.map_cons, List.mem_cons]
    by_cases h : e.path = p
    · simp [h]
    · rw [if_neg h]
      cases hg : get_node_from_path es p with
      | some j =>
        have hp : p ∈ List.map (fun e => e.path) es := by
          by_contra hc
          rw [ih.mpr (by simpa [paths] using hc)] at hg
          exact Option.noConfusion hg
        simp [hp]
      | none =>
        have hp := ih.mp hg
        simp only [paths] at hp
        simp [Ne.symm h, hp]

theorem get_node_from_path_some {st : List WDData} {p : Path} {i : Nat}
    (h : get_node_from_path st p = some i) :
    ∃ e, st[i]? = some e ∧ e.path = p := by
  induction st generalizing i with
  | nil => simp [get_node_from_path] at h
  | cons e es ih =>
    by_cases he : e.path = p
    · simp only [get_node_from_path, if_pos he] at h
      cases h
      exact ⟨e, by simp, he⟩
    · simp only [get_node_from_path, if_neg he] at h
      cases hg : get_node_from_path es p with
      | none => rw [hg] at h; simp at h
      | some j =>
        rw [hg] at h
        have h' : j + 1 = i := by simpa using h
        subst h'
        obtain ⟨e', he', hp⟩ := ih hg
        exact ⟨e', by simpa using he', hp⟩

theorem get_node_from_path_mem {st : List WDData} {p : Path}
    (h : p ∈ paths st) : ∃ i, get_node_from_path st p = some i := by
  induction st with
  | nil => simp [paths] at h
  | cons e es ih =>
    by_cases he : e.path = p
    · exact ⟨0, by simp [get_node_from_path, he]⟩
    · simp only [paths, List.map_cons, List.mem_cons] at h
      rcases h with h | h
      · exact absurd h.symm he
      · obtain ⟨i, hi⟩ := ih h
        exact ⟨i + 1, by simp [get_node_from_path, he, hi]⟩

theorem attach_link_paths (st : List WDData) (i : Nat) (l : Path) :
    paths (attach_link st i l) = paths st := by
  induction st generalizing i with
  | nil => rfl
  | cons e es ih =>
    cases i with
    | zero => simp [attach_link, paths]
    | succ n =>
      have := ih n
      simp only [paths] at this
      simp [attach_link, paths, this]

theorem attach_link_length (st : List WDData) (i : Nat) (l : Path) :
    (attach_link st i l).length = st.length := by
  induction st generalizing i with
  | nil => rfl
  | cons e es ih =>
    cases i with
    | zero => simp [attach_link]
    | succ n => simp [attach_link, ih n]

theorem attach_link_getElem {st : List WDData} {i : Nat} {e : WDData}
    (h : st[i]? = some e) (l : Path) :
    (attach_link st i l)[i]? = some { e with links := e.links ++ [l] } := by
  induction st generalizing i with
  | nil => simp at h
  | cons x xs ih =>
    cases i with
    | zero => simp_all [attach_link]
    | succ n =>
      simp only [List.getElem?_cons_succ] at h
      simpa [attach_link] using ih h

theorem attach_link_getElem_ne {st : List WDData} (i : Nat) (l : Path)
    {j : Nat} (hij : j ≠ i) : (attach_link st i l)[j]? = st[j]? := by
  induction st generalizing i j with
  | nil => rfl
  | cons x xs ih =>
    cases i with
    | zero =>
      cases j with
      | zero => exact absurd rfl hij
      | succ m => simp [attach_link]
    | succ n =>
      cases j with
      | zero => simp [attach_link]
      | succ m =>
        simp only [attach_link, List.getElem?_cons_succ]
        exact ih n (fun h => hij (by simp [h]))

theorem linkPaths_append (st1 st2 : List WDData) :
    linkPaths (st1 ++ st2) = linkPaths st1 ++ linkPaths st2 := by
  induction st1 with
  | nil => rfl
  | cons e es ih => simp [linkPaths, ih]

theorem mem_linkPaths {st : List WDData} {x : Path} :
    x ∈ linkPaths st ↔ ∃ e ∈ st, x ∈ e.links := by
  induction st with
  | nil => simp [linkPaths]
  | cons e es ih =>
    simp only [linkPaths, List.mem_append, ih, List.mem_cons]
    constructor
    · rintro (h | ⟨e', he', hx⟩)
      · exact ⟨e, Or.inl rfl, h⟩
      · exact ⟨e', Or.inr he', hx⟩
    · rintro ⟨e', he' | he', hx⟩
      · subst he'; exact Or.inl hx
      · exact Or.inr ⟨e', he', hx⟩

theorem get_link_data_from_path_eq_none {st : List WDData} {l : Path} :
    get_link_data_from_path st l = none ↔ l ∉ linkPaths st := by
  induction st with
  | nil => simp [get_link_data_from_path, linkPaths]
  | cons e es ih =>
    by_cases h : e.links.contains l
    · simp [get_link_data_from_path, h, linkPaths, List.elem_iff.mp h]
    · have hl : l ∉ e.links := fun hm => h (List.elem_iff.mpr hm)
      simp [get_link_data_from_path, h, linkPaths, ih, hl]

theorem mem_linkPaths_attach {st : List WDData} {i : Nat} {x : Path}
    (l : Path) (h : x ∈ linkPaths st) : x ∈ linkPaths (attach_link st i l) := by
  induction st generalizing i with
  | nil => simp [linkPaths] at h
  | cons e es ih =>
    cases i with
    | zero =>
      simp only [attach_link, linkPaths, List.mem_append] at h ⊢
      tauto
    | succ n =>
      simp only [attach_link, linkPaths, List.mem_append] at h ⊢
      rcases h with h | h
      · exact Or.inl h
      · exact Or.inr (ih h)

theorem self_mem_linkPaths_attach {st : List WDData} {i : Nat} {e : WDData}
    (h : st[i]? = some e) (l : Path) : l ∈ linkPaths (attach_link st i l) := by
  induction st generalizing i with
  | nil => simp at h
  | cons x xs ih =>
    cases i with
    | zero =>
      simp only [List.getElem?_cons_zero, Option.some_inj] at h
      subst h
      simp [attach_link, linkPaths]
    | succ n =>
      simp only [List.getElem?_cons_succ] at h
      simp only [attach_link, linkPaths, List.mem_append]
      exact Or.inr (ih h)

/-! ### Structure of `add_to_watch_list` -/

theorem add_to_watch_list_existing {cfg : Config} {st : List WDData}
    {p : Path} {i : Nat} (h : get_node_from_path st p = some i)
    (sym : Option Path) :
    add_to_watch_list cfg st p sym =
      (some i, match sym with
        | some l => attach_link st i l
        | none => st) := by
  cases sym <;> simp [add_to_watch_list, h]

theorem add_to_watch_list_fail {cfg : Config} {st : List WDData} {p : Path}
    (h : get_node_from_path st p = none) (hk : cfg.ker p = none)
    (sym : Option Path) : add_to_watch_list cfg st p sym = (none, st) := by
  cases sym <;> simp [add_to_watch_list, h, hk]

theorem add_to_watch_list_new {cfg : Config} {st : List WDData} {p : Path}
    {wd : Nat} (h : get_node_from_path st p = none) (hk : cfg.ker p = some wd)
    (sym : Option Path) :
    add_to_watch_list cfg st p sym =
      (some st.length, match sym with
        | some l => st ++ [⟨wd, p, [l]⟩]
        | none => st ++ [⟨wd, p, []⟩]) := by
  cases sym with
  | none => simp [add_to_watch_list, h, hk]
  | some l =>
    simp only [add_to_watch_list, h, hk]
    have hx : ∀ (xs : List WDData),
        attach_link (xs ++ [(⟨wd, p, []⟩ : WDData)]) xs.length l =
          xs ++ [⟨wd, p, [l]⟩] := by
      intro xs
      induction xs with
      | nil => rfl
      | cons y ys ihy => simpa [attach_link] using ihy
    rw [hx st]

theorem paths_add_to_watch_list (cfg : Config) (st : List WDData) (p : Path)
    (sym : Option Path) :
    paths (add_to_watch_list cfg st p sym).2 = paths st ∨
      (paths (add_to_watch_list cfg st p sym).2 = paths st ++ [p] ∧
        p ∉ paths st) := by
  cases hg : get_node_from_path st p with
  | some i =>
    left
    rw [add_to_watch_list_existing hg sym]
    cases sym <;> simp [attach_link_paths]
  | none =>
    cases hk : cfg.ker p with
    | none => left; rw [add_to_watch_list_fail hg hk sym]
    | some wd =>
      right
      rw [add_to_watch_list_new hg hk sym]
      refine ⟨?_, get_node_from_path_eq_none.mp hg⟩
      cases sym <;> simp [paths]

theorem linkPaths_add_mono {cfg : Config} {st : List WDData} {p : Path}
    {sym : Option Path} {x : Path} (h : x ∈ linkPaths st) :
    x ∈ linkPaths (add_to_watch_list cfg st p sym).2 := by
  cases hg : get_node_from_path st p with
  | some i =>
    rw [add_to_watch_list_existing hg sym]
    cases sym with
    | none => exact h
    | some l => exact mem_linkPaths_attach l h
  | none =>
    cases hk : cfg.ker p with
    | none => rw [add_to_watch_list_fail hg hk sym]; exact h
    | some wd =>
      rw [add_to_watch_list_new hg hk sym]
      cases sym <;>
        · simp only [linkPaths_append, List.mem_append]
          exact Or.inl h

theorem linkPaths_add_none (cfg : Config) (st : List WDData) (p : Path) :
    linkPaths (add_to_watch_list cfg st p none).2 = linkPaths st := by
  cases hg : get_node_from_path st p with
  | some i => rw [add_to_watch_list_existing hg none]
  | none =>
    cases hk : cfg.ker p with
    | none => rw [add_to_watch_list_fail hg hk none]
    | some wd =>
      rw [add_to_watch_list_new hg hk none]
      simp [linkPaths_append, linkPaths]

theorem linkPaths_add_some {cfg : Config} {st : List WDData} {p : Path}
    {l : Path} (hker : ∀ q, (cfg.ker q).isSome) :
    l ∈ linkPaths (add_to_watch_list cfg st p (some l)).2 := by
  cases hg : get_node_from_path st p with
  | some i =>
    rw [add_to_watch_list_existing hg (some l)]
    obtain ⟨e, he, -⟩ := get_node_from_path_some hg
    exact self_mem_linkPaths_attach he l
  | none =>
    cases hk : cfg.ker p with
    | none => have := hker p; rw [hk] at this; simp at this
    | some wd =>
      rw [add_to_watch_list_new hg hk (some l)]
      simp [linkPaths_append, linkPaths]

/-! ### Preservation of the path-uniqueness and root-presence invariants -/

theorem nodup_paths_add (cfg : Config) (st : List WDData) (p : Path)
    (sym : Option Path) (h : (paths st).Nodup) :
    (paths (add_to_watch_list cfg st p sym).2).Nodup := by
  rcases paths_add_to_watch_list cfg st p sym with heq | ⟨heq, hmem⟩
  · rwa [heq]
  · rw [heq, List.nodup_append]
    refine ⟨h, List.nodup_singleton p, ?_⟩
    intro a ha hb
    rw [List.mem_singleton] at hb
    subst hb
    exact hmem ha

theorem paths_set_path_eq {st : List WDData} {i : Nat} {e e' : WDData}
    (h : st[i]? = some e) (hp : e'.path = e.path) :
    paths (st.set i e') = paths st := by
  induction st generalizing i with
  | nil => rfl
  | cons x xs ih =>
    cases i with
    | zero =>
      simp only [List.getElem?_cons_zero, Option.some_inj] at h
      subst h
      simp [paths, hp]
    | succ n =>
      simp only [List.getElem?_cons_succ] at h
      simp [paths, List.set]
      have := ih h
      simpa [paths] using this

theorem paths_eraseIdx_sublist (st : List WDData) (i : Nat) :
    (paths (st.eraseIdx i)).Sublist (paths st) := by
  have := (List.eraseIdx_sublist st i).map (fun e : WDData => e.path)
  simpa [paths] using this

theorem paths_filter_sublist (st : List WDData) (pred : WDData → Bool) :
    (paths (st.filter pred)).Sublist (paths st) := by
  have := (List.filter_sublist st (p := pred)).map (fun e : WDData => e.path)
  simpa [paths] using this

theorem unwatch_symbolic_link_none {root : Path} {st : List WDData}
    {i : Nat} (l : Path) (he : st[i]? = none) :
    unwatch_symbolic_link root st i l = st := by
  simp [unwatch_symbolic_link, he]

theorem unwatch_symbolic_link_some {root : Path} {st : List WDData}
    {i : Nat} {e : WDData} (l : Path) (he : st[i]? = some e) :
    unwatch_symbolic_link root st i l =
      if e.links.erase l = [] ∧ is_child_of e.path root = false then
        remove_orphan_watched_resources root
          (st.set i { e with links := e.links.erase l }) e.path
          (list_of_referenced_path
            (st.set i { e with links := e.links.erase l }) e.path)
      else st.set i { e with links := e.links.erase l } := by
  simp [unwatch_symbolic_link, he]

theorem nodup_paths_unwatch_symbolic_link {root : Path} {st : List WDData}
    (i : Nat) (l : Path) (h : (paths st).Nodup) :
    (paths (unwatch_symbolic_link root st i l)).Nodup := by
  cases he : st[i]? with
  | none => rwa [unwatch_symbolic_link_none l he]
  | some e =>
    rw [unwatch_symbolic_link_some l he]
    have hset : paths (st.set i { e with links := e.links.erase l }) = paths st :=
      paths_set_path_eq he rfl
    by_cases hc : e.links.erase l = [] ∧ is_child_of e.path root = false
    · rw [if_pos hc]
      have h1 : (paths (st.set i { e with links := e.links.erase l })).Nodup := by
        rwa [hset]
      exact List.Sublist.nodup (paths_filter_sublist _ _) h1
    · rw [if_neg hc]
      rwa [hset]

theorem root_mem_paths_filter {root : Path} {st : List WDData}
    {pred : WDData → Bool} (hkeep : ∀ e ∈ st, e.path = root → pred e = true)
    (h : root ∈ paths st) : root ∈ paths (st.filter pred) := by
  simp only [paths, List.mem_map] at h ⊢
  obtain ⟨e, he, hp⟩ := h
  exact ⟨e, List.mem_filter.mpr ⟨he, hkeep e he hp⟩, hp⟩

theorem root_mem_remove_orphan (root : Path) (st : List WDData) (path : Path)
    (refs : List Path) (h : root ∈ paths st) :
    root ∈ paths (remove_orphan_watched_resources root st path refs) := by
  refine root_mem_paths_filter ?_ h
  intro e _ hp
  simp [hp]

theorem root_mem_unwatch_symbolic_link {root : Path} {st : List WDData}
    (i : Nat) (l : Path) (h : root ∈ paths st) :
    root ∈ paths (unwatch_symbolic_link root st i l) := by
  cases he : st[i]? with
  | none => rwa [unwatch_symbolic_link_none l he]
  | some e =>
    rw [unwatch_symbolic_link_some l he]
    have hset : paths (st.set i { e with links := e.links.erase l }) = paths st :=
      paths_set_path_eq he rfl
    by_cases hc : e.links.erase l = [] ∧ is_child_of e.path root = false
    · rw [if_pos hc]
      exact root_mem_remove_orphan _ _ _ _ (by rwa [hset])
    · rw [if_neg hc]
      rwa [hset]

theorem root_mem_paths_add (cfg : Config) (st : List WDData) (p : Path)
    (sym : Option Path) {root : Path} (h : root ∈ paths st) :
    root ∈ paths (add_to_watch_list cfg st p sym).2 := by
  rcases paths_add_to_watch_list cfg st p sym with heq | ⟨heq, -⟩
  · rwa [heq]
  · rw [heq]; exact List.mem_append_left _ h

theorem root_mem_unwatch_link_loop {root : Path} {fs : FS}
    (fuel : Nat) (st : List WDData) (q : List Path) (h : root ∈ paths st) :
    root ∈ paths (unwatch_link_loop root fs fuel st q) := by
  induction fuel generalizing st q with
  | zero => exact h
  | succ n ih =>
    cases q with
    | nil => exact h
    | cons l q' =>
      simp only [unwatch_link_loop]
      cases hg : get_link_node_from_path st l with
      | none => exact ih st q' h
      | some i =>
        simp only []
        cases he : st[i]? with
        | none => exact ih st q' h
        | some e =>
          simp only []
          cases ho : opendir fs e.path with
          | none => exact ih st q' h
          | some ds => exact ih _ _ (root_mem_unwatch_symbolic_link i l h)

/-! ### Shape of one traversal step -/

theorem process_dirent_table (cfg : Config) (fs : FS) (p : Path)
    (acc : List WDData × List Path) (d : DirEnt) :
    (process_dirent cfg fs p acc d).1 = acc.1 ∨
      ∃ pp sym, (process_dirent cfg fs p acc d).1 =
        (add_to_watch_list cfg acc.1 pp sym).2 := by
  unfold process_dirent
  repeat' split
  all_goals try (left; rfl)
  all_goals right; exact ⟨_, _, rfl⟩

theorem process_dirent_queue (cfg : Config) (fs : FS) (p : Path)
    (acc : List WDData × List Path) (d : DirEnt) :
    (process_dirent cfg fs p acc d).2 = acc.2 ∨
      ∃ c, (process_dirent cfg fs p acc d).2 = acc.2 ++ [c] := by
  unfold process_dirent
  repeat' split
  all_goals try (left; rfl)
  all_goals right; exact ⟨_, rfl⟩

theorem nodup_foldl_process (cfg : Config) (fs : FS) (p : Path) :
    ∀ (ds : List DirEnt) (acc : List WDData × List Path),
      (paths acc.1).Nodup →
      (paths ((ds.foldl (process_dirent cfg fs p) acc).1)).Nodup := by
  intro ds
  induction ds with
  | nil => intro acc h; exact h
  | cons d ds ih =>
    intro acc h
    simp only [List.foldl_cons]
    refine ih _ ?_
    rcases process_dirent_table cfg fs p acc d with heq | ⟨pp, sym, heq⟩
    · rwa [heq]
    · rw [heq]; exact nodup_paths_add cfg acc.1 pp sym h

theorem nodup_watch_loop (cfg : Config) (fs : FS) :
    ∀ (fuel : Nat) (st : List WDData) (q : List Path),
      (paths st).Nodup →
      (paths (runTableR (watch_loop cfg fs fuel st q))).Nodup := by
  intro fuel
  induction fuel with
  | zero =>
    intro st q h
    cases q <;> simpa [watch_loop, runTableR]
  | succ n ih =>
    intro st q h
    cases q with
    | nil => simpa [watch_loop, runTableR]
    | cons pq q' =>
      simp only [watch_loop]
      cases ho : opendir fs pq with
      | none => simpa [runTableR]
      | some ds =>
        simp only []
        exact ih _ _ (nodup_foldl_process cfg fs pq ds (st, q') h)

theorem nodup_watch (cfg : Config) (fs : FS) (fuel : Nat) (st : List WDData)
    (p : Path) (sym : Option Path) (h : (paths st).Nodup) :
    (paths (outcomeTable (watch cfg fs fuel st p sym))).Nodup := by
  unfold watch
  cases ha : add_to_watch_list cfg st p sym with
  | mk node st1 =>
    have h1 : (paths st1).Nodup := by
      have := nodup_paths_add cfg st p sym h
      rwa [ha] at this
    cases node with
    | none => simpa [outcomeTable]
    | some i =>
      have h2 := nodup_watch_loop cfg fs fuel st1 [p] h1
      cases hr : watch_loop cfg fs fuel st1 [p] <;>
        simpa [outcomeTable, hr, runTableR] using h2

theorem nodup_unwatch (cfg : Config) (fs : FS) (fuel : Nat) (st : List WDData)
    (p : Path) (isLink : Bool) (h : (paths st).Nodup) :
    (paths (unwatch cfg fs fuel st p isLink)).Nodup := by
  cases isLink with
  | false =>
    simp only [unwatch]
    cases hg : get_node_from_path st p with
    | none => simpa
    | some i =>
      simp only []
      exact List.Sublist.nodup (paths_eraseIdx_sublist st i) h
  | true =>
    simp only [unwatch]
    have : ∀ (n : Nat) (st' : List WDData) (q : List Path),
        (paths st').Nodup →
        (paths (unwatch_link_loop cfg.root_path fs n st' q)).Nodup := by
      intro n
      induction n with
      | zero => intro st' q hn; exact hn
      | succ m ih =>
        intro st' q hn
        cases q with
        | nil => exact hn
        | cons l q' =>
          simp only [unwatch_link_loop]
          cases get_link_node_from_path st' l with
          | none => exact ih st' q' hn
          | some i =>
            simp only []
            cases st'[i]? with
            | none => exact ih st' q' hn
            | some e =>
              simp only []
              cases opendir fs e.path with
              | none => exact ih st' q' hn
              | some ds =>
                exact ih _ _ (nodup_paths_unwatch_symbolic_link i l hn)
    exact this fuel st [p] h

theorem nodup_event_handler_create (cfg : Config) (fs : FS) (fuel : Nat)
    (isDir : Bool) (p : Path) (st : List WDData) (h : (paths st).Nodup) :
    (paths (event_handler_create cfg fs fuel isDir p st)).Nodup := by
  unfold event_handler_create
  repeat' split
  all_goals first
    | exact h
    | exact nodup_watch cfg fs fuel st _ _ h

theorem nodup_event_handler_delete (cfg : Config) (fs : FS) (fuel : Nat)
    (isDir : Bool) (p : Path) (st : List WDData) (h : (paths st).Nodup) :
    (paths (event_handler_delete cfg fs fuel isDir p st)).Nodup := by
  unfold event_handler_delete
  repeat' split
  all_goals first
    | exact h
    | exact nodup_unwatch cfg fs fuel st _ _ h

theorem nodup_applyOp (cfg : Config) (fs : FS) (st : List WDData) (op : Op)
    (h : (paths st).Nodup) : (paths (applyOp cfg fs st op)).Nodup := by
  cases op with
  | register p sym => exact nodup_paths_add cfg st p sym h
  | doWatch fuel p sym => exact nodup_watch cfg fs fuel st p sym h
  | doUnwatch fuel p isLink => exact nodup_unwatch cfg fs fuel st p isLink h
  | unwatchSym l =>
    simp only [applyOp]
    cases get_link_node_from_path st l with
    | none => exact h
    | some i => exact nodup_paths_unwatch_symbolic_link i l h
  | reclaimOrphans p =>
    exact List.Sublist.nodup (paths_filter_sublist st _) h
  | evCreate fuel isDir p => exact nodup_event_handler_create cfg fs fuel isDir p st h
  | evDelete fuel isDir p => exact nodup_event_handler_delete cfg fs fuel isDir p st h
  | evMovedFrom fuel isDir p => exact nodup_event_handler_delete cfg fs fuel isDir p st h
  | evMovedTo fuel isDir p =>
    simp only [applyOp, event_handler_moved_to]
    split
    · exact nodup_event_handler_create cfg fs fuel isDir p st h
    · exact h

theorem nodup_applyOps (cfg : Config) (fs : FS) :
    ∀ (ops : List Op) (st : List WDData), (paths st).Nodup →
      (paths (applyOps cfg fs st ops)).Nodup := by
  intro ops
  induction ops with
  | nil => intro st h; exact h
  | cons op ops ih =>
    intro st h
    exact ih _ (nodup_applyOp cfg fs st op h)

/-! ### Root permanence machinery -/

theorem root_mem_applyOp_sym (cfg : Config) (fs : FS) (st : List WDData)
    (op : Op) (hop : symOnlyOp op = true)
    (h : cfg.root_path ∈ paths st) :
    cfg.root_path ∈ paths (applyOp cfg fs st op) := by
  cases op with
  | register p sym => exact root_mem_paths_add cfg st p sym h
  | doUnwatch fuel p isLink =>
    cases isLink with
    | false => simp [symOnlyOp] at hop
    | true =>
      simp only [applyOp, unwatch]
      exact root_mem_unwatch_link_loop fuel st [p] h
  | unwatchSym l =>
    simp only [applyOp]
    cases get_link_node_from_path st l with
    | none => exact h
    | some i => exact root_mem_unwatch_symbolic_link i l h
  | reclaimOrphans p => exact root_mem_remove_orphan _ _ _ _ h
  | doWatch fuel p sym => simp [symOnlyOp] at hop
  | evCreate fuel isDir p => simp [symOnlyOp] at hop
  | evDelete fuel isDir p => simp [symOnlyOp] at hop
  | evMovedFrom fuel isDir p => simp [symOnlyOp] at hop
  | evMovedTo fuel isDir p => simp [symOnlyOp] at hop

theorem root_mem_applyOps_sym (cfg : Config) (fs : FS) :
    ∀ (ops : List Op) (st : List WDData), ops.all symOnlyOp = true →
      cfg.root_path ∈ paths st →
      cfg.root_path ∈ paths (applyOps cfg fs st ops) := by
  intro ops
  induction ops with
  | nil => intro st _ h; exact h
  | cons op ops ih =>
    intro st hall h
    simp only [List.all_cons, Bool.and_eq_true] at hall
    exact ih _ hall.2 (root_mem_applyOp_sym cfg fs st op hall.1 h)

theorem attach_link_eq_set {st : List WDData} {i : Nat} {e : WDData}
    (h : st[i]? = some e) (l : Path) :
    attach_link st i l = st.set i { e with links := e.links ++ [l] } := by
  induction st generalizing i with
  | nil => simp at h
  | cons x xs ih =>
    cases i with
    | zero =>
      simp only [List.getElem?_cons_zero, Option.some_inj] at h
      subst h
      simp [attach_link]
    | succ n =>
      simp only [List.getElem?_cons_succ] at h
      simp [attach_link, ih h]

/-! ### Claim theorems -/

/-- Claim C1: for every sequence of register/watch/unwatch operations and
dispatched create/delete/move events, starting from a duplicate-free table
the canonical paths of the watch-table entries stay duplicate-free, and
registering (`add_to_watch_list`) a path that already has an entry creates
no new entry and returns the existing one. -/
theorem uniqueness_invariant (cfg : Config) (fs : FS) (st : List WDData)
    (h : (paths st).Nodup) :
    (∀ ops : List Op, (paths (applyOps cfg fs st ops)).Nodup) ∧
      (∀ p sym, p ∈ paths st →
        ∃ i e, get_node_from_path st p = some i ∧ st[i]? = some e ∧
          e.path = p ∧ (add_to_watch_list cfg st p sym).1 = some i ∧
          paths (add_to_watch_list cfg st p sym).2 = paths st) := by
  constructor
  · intro ops
    exact nodup_applyOps cfg fs ops st h
  · intro p sym hp
    obtain ⟨i, hi⟩ := get_node_from_path_mem hp
    obtain ⟨e, he, hpath⟩ := get_node_from_path_some hi
    refine ⟨i, e, hi, he, hpath, ?_, ?_⟩
    · rw [add_to_watch_list_existing hi sym]
    · rw [add_to_watch_list_existing hi sym]
      cases sym with
      | none => rfl
      | some l => exact attach_link_paths st i l

/-- Witness for C1 at a concrete table and operation sequence. -/
theorem uniqueness_invariant_witness :
    (paths stW1).Nodup ∧ (paths (applyOps cfgOk fsRd stW1 opsW1)).Nodup ∧
      (∃ i e, get_node_from_path stW1 rootR = some i ∧ stW1[i]? = some e ∧
        e.path = rootR ∧ (add_to_watch_list cfgOk stW1 rootR none).1 = some i ∧
        paths (add_to_watch_list cfgOk stW1 rootR none).2 = paths stW1) :=
  ⟨by decide, (uniqueness_invariant cfgOk fsRd stW1 (by decide)).1 opsW1,
    (uniqueness_invariant cfgOk fsRd stW1 (by decide)).2 rootR none (by decide)⟩

/-- Claim C2: for every sequence of symlink add/remove operations and
orphan reclamations, the entry whose canonical path equals the configured
root path is never removed. -/
theorem root_permanence (cfg : Config) (fs : FS) (st : List WDData)
    (ops : List Op) (hroot : cfg.root_path ∈ paths st)
    (hops : ops.all symOnlyOp = true) :
    cfg.root_path ∈ paths (applyOps cfg fs st ops) :=
  root_mem_applyOps_sym cfg fs ops st hops hroot

/-- Witness for C2: a symlink-only sequence that orphans and reclaims the
whole out-of-root subtree still keeps the root entry. -/
theorem root_permanence_witness :
    rootR ∈ paths stU ∧ opsW2.all symOnlyOp = true ∧
      rootR ∈ paths (applyOps cfgOk fsLinkT stU opsW2) :=
  ⟨by decide, by decide,
    root_permanence cfgOk fsLinkT stU opsW2 (by decide) (by decide)⟩

/-- Claim C3 (code bug): `unwatch(path, FALSE)` removes only the matched
entry.  On the concrete table holding `/r/` (root), `/a/` and `/a/b/`,
unwatching `/a/` leaves the stale entry `/a/b/` in the table even though it
has no symlink reference and is not under the root — the claimed
descendant pruning does not happen. -/
theorem unwatch_leaves_stale_descendant :
    unwatch cfgOk fsRd 0 stAB "/a/".toList false =
      [⟨1, rootR, []⟩, ⟨3, "/a/b/".toList, []⟩] ∧
    "/a/b/".toList ∈ paths (unwatch cfgOk fsRd 0 stAB "/a/".toList false) ∧
    is_child_of "/a/b/".toList "/a/".toList = true ∧
    is_child_of "/a/b/".toList rootR = false := by
  exact ⟨by decide, by decide, by decide, by decide⟩

/-- Claim C5 (code bug): when a directory popped from the traversal queue
cannot be opened, `watch` terminates the process (`exit(1)`) instead of
returning a recoverable error: on a filesystem whose root lists a
subdirectory `d` that has no listing of its own, the whole call ends in
`fatalExit`. -/
theorem watch_exits_on_unopenable_directory :
    watch cfgOk fsNoD 2 [] rootR none =
      WatchOutcome.fatalExit
        [⟨7, rootR, []⟩, ⟨7, rootR ++ "d".toList ++ slashP, []⟩] := by
  decide

/-- Claim C6 (counterexample): with the target `/t/` already registered,
traversing the root that contains symlink `s -> /t/` attaches the symlink
reference to the existing `/t/` entry but ALSO pushes `/t/` back onto the
work queue — the traversal does re-enqueue an already-registered target,
contradicting the claim. -/
theorem watch_enqueues_registered_target :
    watch cfgOk fsLinkT 1 stT0 rootR none =
      WatchOutcome.outOfFuel
        [⟨1, "/t/".toList, ["/r/s".toList]⟩, ⟨7, rootR, []⟩] ["/t/".toList] ∧
    paths [(⟨1, "/t/".toList, ["/r/s".toList]⟩ : WDData), ⟨7, rootR, []⟩] =
      paths stT0 ++ [rootR] := by
  exact ⟨by decide, by decide⟩

/-- Claim C6 (amended): when a traversed symlink whose own path is not yet
registered resolves to a directory that already has an entry, the step
attaches the symlink reference to that entry, creates no new entry, and
appends the target to the work queue (re-traversal is prevented only by
the symlink-registration check on later encounters). -/
theorem traversal_attaches_and_enqueues {cfg : Config} {fs : FS} {p : Path}
    {st : List WDData} {q : List Path} {d : DirEnt} {i : Nat} {t : Path}
    (hd : d.ftype = FType.lnk) (hns : cfg.nosymlink_flag = false)
    (hrec : cfg.recursive_flag = true)
    (hnl : get_link_data_from_path st (p ++ d.name) = none)
    (hres : fs.resolve (p ++ d.name) = some t)
    (hod : (opendir fs t).isSome = true)
    (hreg : get_node_from_path st t = some i) :
    process_dirent cfg fs p (st, q) d =
      (attach_link st i (p ++ d.name), q ++ [t]) ∧
    paths (attach_link st i (p ++ d.name)) = paths st := by
  constructor
  · unfold process_dirent
    rw [if_neg (by simp [hd]), if_neg (by simp [hd]), if_pos (by simp [hd, hns])]
    simp only [hnl, Option.isSome_none, Bool.false_eq_true, if_false, hres]
    cases ho : opendir fs t with
    | none => rw [ho] at hod; simp at hod
    | some ds =>
      simp only [hrec, if_true]
      rw [add_to_watch_list_existing hreg (some (p ++ d.name))]
  · exact attach_link_paths st i (p ++ d.name)

/-- Witness for the amended C6 at the concrete root/symlink scenario. -/
theorem traversal_attaches_and_enqueues_witness :
    (⟨"s".toList, FType.lnk⟩ : DirEnt).ftype = FType.lnk ∧
    cfgOk.nosymlink_flag = false ∧ cfgOk.recursive_flag = true ∧
    get_link_data_from_path stT0 (rootR ++ "s".toList) = none ∧
    fsLinkT.resolve (rootR ++ "s".toList) = some "/t/".toList ∧
    (opendir fsLinkT "/t/".toList).isSome = true ∧
    get_node_from_path stT0 "/t/".toList = some 0 ∧
    (process_dirent cfgOk fsLinkT rootR (stT0, []) ⟨"s".toList, FType.lnk⟩ =
        (attach_link stT0 0 (rootR ++ "s".toList), [] ++ ["/t/".toList]) ∧
      paths (attach_link stT0 0 (rootR ++ "s".toList)) = paths stT0) :=
  ⟨by decide, by decide, by decide, by decide, by decide, by decide, by decide,
    traversal_attaches_and_enqueues (by decide) (by decide) (by decide)
      (by decide) (by decide) (by decide) (by decide)⟩

/-- Claim C9 (counterexample): registering the same path/symlink pair a
second time through `add_to_watch_list` is not a no-op — the symlink list
of `/t/` ends up holding `/r/s` twice. -/
theorem add_duplicate_symlink :
    (add_to_watch_list cfgOk stT "/t/".toList (some "/r/s".toList)).2 =
      [⟨1, "/t/".toList, ["/r/s".toList, "/r/s".toList]⟩] ∧
    (linkPaths stT).count "/r/s".toList = 1 ∧
    (linkPaths (add_to_watch_list cfgOk stT "/t/".toList
      (some "/r/s".toList)).2).count "/r/s".toList = 2 := by
  exact ⟨by decide, by decide, by decide⟩

/-- Claim C9 (amended): `add_to_watch_list` on an already-registered path
with a symlink argument unconditionally appends the symlink to the entry's
link list — also when that path is already present, producing duplicates;
deduplication happens only in `watch`'s traversal, which skips symlinks
that `get_link_data_from_path` already finds. -/
theorem add_symlink_always_appends (cfg : Config) (st : List WDData)
    (p l : Path) (i : Nat) (e : WDData)
    (h1 : get_node_from_path st p = some i) (h2 : st[i]? = some e) :
    add_to_watch_list cfg st p (some l) =
      (some i, st.set i { e with links := e.links ++ [l] }) := by
  simp only [add_to_watch_list, h1]
  rw [attach_link_eq_set h2 l]

/-- Witness for the amended C9: the append happens even though `/r/s` is
already in the link list. -/
theorem add_symlink_always_appends_witness :
    get_node_from_path stT "/t/".toList = some 0 ∧
    stT[0]? = some ⟨1, "/t/".toList, ["/r/s".toList]⟩ ∧
    add_to_watch_list cfgOk stT "/t/".toList (some "/r/s".toList) =
      (some 0, stT.set 0 ⟨1, "/t/".toList, ["/r/s".toList, "/r/s".toList]⟩) :=
  ⟨by decide, by decide,
    add_symlink_always_appends cfgOk stT "/t/".toList "/r/s".toList 0
      ⟨1, "/t/".toList, ["/r/s".toList]⟩ (by decide) (by decide)⟩

/-- Claim C10: when the kernel refuses to install a watch for a path that
has no entry yet, `add_to_watch_list` returns NULL leaving the table
completely unchanged, and `watch` returns the error code `-1` without
mutating the table. -/
theorem registration_failure_atomic {cfg : Config} {fs : FS} {fuel : Nat}
    {st : List WDData} {p : Path} (sym : Option Path)
    (h1 : get_node_from_path st p = none) (h2 : cfg.ker p = none) :
    add_to_watch_list cfg st p sym = (none, st) ∧
      watch cfg fs fuel st p sym = WatchOutcome.errNoWatch st := by
  refine ⟨add_to_watch_list_fail h1 h2 sym, ?_⟩
  unfold watch
  rw [add_to_watch_list_fail h1 h2 sym]

/-- Witness for C10: the kernel of `cfgCyc` refuses `/x1/`. -/
theorem registration_failure_atomic_witness :
    get_node_from_path stCyc pX1 = none ∧ cfgCyc.ker pX1 = none ∧
      (add_to_watch_list cfgCyc stCyc pX1 none = (none, stCyc) ∧
        watch cfgCyc fsCyc 3 stCyc pX1 none = WatchOutcome.errNoWatch stCyc) :=
  ⟨by decide, by decide,
    registration_failure_atomic none (by decide) (by decide)⟩

/-! ### Orphan reclamation: the pruned references list built by
`list_of_referenced_path` covers exactly what the spec's full
referenced-path set covers -/

theorem exists_in_absorb {x y : Path} {acc : List Path}
    (hy : exists_in y acc = true) (hxy : is_child_of x y = true) :
    exists_in x acc = true := by
  obtain ⟨r, hr, hyr⟩ := exists_in_eq_true.mp hy
  exact exists_in_eq_true.mpr ⟨r, hr, is_child_of_trans hxy hyr⟩

theorem exists_in_refs_aux (q : Path) :
    ∀ (l : List WDData) (acc : List Path) (x : Path),
      exists_in x
          (l.foldl
            (fun acc e =>
              if e.links ≠ [] ∧ (path_le q e.path ∨ path_le e.path q)
                  ∧ exists_in e.path acc = false
              then acc ++ [e.path] else acc)
            acc) = true ↔
        (exists_in x acc = true ∨
          ∃ y ∈ l, (y.links ≠ [] ∧ (path_le q y.path ∨ path_le y.path q))
            ∧ is_child_of x y.path = true) := by
  intro l
  induction l with
  | nil => simp
  | cons y l ih =>
    intro acc x
    simp only [List.foldl_cons]
    by_cases h1 : y.links ≠ [] ∧ (path_le q y.path ∨ path_le y.path q)
    · by_cases h2 : exists_in y.path acc = false
      · rw [if_pos ⟨h1.1, h1.2, h2⟩, ih, exists_in_append]
        have hsing : exists_in x [y.path] = is_child_of x y.path := by
          simp [exists_in]
        rw [hsing]
        simp only [Bool.or_eq_true, List.mem_cons]
        constructor
        · rintro (⟨ha | hb⟩ | ⟨z, hz, hzz⟩)
          · exact Or.inl ha
          · exact Or.inr ⟨y, Or.inl rfl, h1, hb⟩
          · exact Or.inr ⟨z, Or.inr hz, hzz⟩
        · rintro (ha | ⟨z, hz | hz, hzz⟩)
          · exact Or.inl (Or.inl ha)
          · subst hz; exact Or.inl (Or.inr hzz.2)
          · exact Or.inr ⟨z, hz, hzz⟩
      · rw [if_neg (by tauto), ih]
        have h2' : exists_in y.path acc = true := by
          cases hx : exists_in y.path acc with
          | false => exact absurd hx h2
          | true => rfl
        simp only [List.mem_cons]
        constructor
        · rintro (ha | ⟨z, hz, hzz⟩)
          · exact Or.inl ha
          · exact Or.inr ⟨z, Or.inr hz, hzz⟩
        · rintro (ha | ⟨z, hz | hz, hzz⟩)
          · exact Or.inl ha
          · subst hz; exact Or.inl (exists_in_absorb h2' hzz.2)
          · exact Or.inr ⟨z, hz, hzz⟩
    · rw [if_neg (by tauto), ih]
      simp only [List.mem_cons]
      constructor
      · rintro (ha | ⟨z, hz, hzz⟩)
        · exact Or.inl ha
        · exact Or.inr ⟨z, Or.inr hz, hzz⟩
      · rintro (ha | ⟨z, hz | hz, hzz⟩)
        · exact Or.inl ha
        · subst hz; exact absurd hzz.1 h1
        · exact Or.inr ⟨z, hz, hzz⟩

theorem exists_in_refs_eq_spec_any (st : List WDData) (q x : Path) :
    exists_in x (list_of_referenced_path st q) =
      (spec_referenced_paths st q).any (fun r => is_child_of x r) := by
  refine Bool.coe_iff_coe.mp ?_
  unfold list_of_referenced_path
  rw [exists_in_refs_aux q st [] x]
  simp only [exists_in, List.any_nil, Bool.false_eq_true, false_or]
  simp only [List.any_eq_true, spec_referenced_paths, List.mem_map,
    List.mem_filter]
  constructor
  · rintro ⟨y, hy, hpred, hchild⟩
    exact ⟨y.path, ⟨y, ⟨hy, by simpa using hpred⟩, rfl⟩, hchild⟩
  · rintro ⟨r, ⟨y, ⟨hy, hpred⟩, rfl⟩, hchild⟩
    exact ⟨y, hy, by simpa using hpred, hchild⟩

theorem remove_orphan_eq_spec_filter (root : Path) (st : List WDData)
    (q : Path) :
    remove_orphan_watched_resources root st q (list_of_referenced_path st q) =
      st.filter
        (fun e => !(spec_released root q (spec_referenced_paths st q) e)) := by
  unfold remove_orphan_watched_resources
  refine List.filter_congr ?_
  intro e _
  have hE := exists_in_refs_eq_spec_any st q e.path
  by_cases hA : e.path = root <;>
    by_cases hB : e.links = [] <;>
      cases hC : is_child_of e.path q <;>
        cases hAny : (spec_referenced_paths st q).any
            (fun r => is_child_of e.path r) <;>
          simp [spec_released, hA, hB, hC, hAny, hE]

/-- Claim C4: `unwatch_symbolic_link` removes the designated reference; if
the owning entry still has a live reference or lies under the root, the
table is otherwise unchanged; otherwise exactly those entries are released
that are descendants of the entry's path, have no live reference, are not
the root, and are not covered by any path of the spec's referenced-path
set (live-referenced entries that are prefix ancestors or descendants of
the entry's path). -/
theorem orphan_reclamation (root : Path) (st : List WDData) (i : Nat)
    (e : WDData) (l : Path) (he : st[i]? = some e) (_hl : l ∈ e.links) :
    (¬(e.links.erase l = [] ∧ is_child_of e.path root = false) →
      unwatch_symbolic_link root st i l =
        st.set i { e with links := e.links.erase l }) ∧
    ((e.links.erase l = [] ∧ is_child_of e.path root = false) →
      unwatch_symbolic_link root st i l =
        (st.set i { e with links := e.links.erase l }).filter
          (fun x => !(spec_released root e.path
            (spec_referenced_paths
              (st.set i { e with links := e.links.erase l }) e.path) x))) := by
  constructor
  · intro hc
    rw [unwatch_symbolic_link_some l he, if_neg hc]
  · intro hc
    rw [unwatch_symbolic_link_some l he, if_pos hc]
    exact remove_orphan_eq_spec_filter root _ e.path

/-- Witness for C4: removing the last reference `/r/s` of the out-of-root
entry `/a/` releases `/a/` and `/a/b/` but keeps `/a/c/` (still referenced
by `/r/t`) and its descendant `/a/c/d/` (covered by `/a/c/`). -/
theorem orphan_reclamation_witness :
    stU[1]? = some ⟨2, "/a/".toList, ["/r/s".toList]⟩ ∧
    "/r/s".toList ∈ (⟨2, "/a/".toList, ["/r/s".toList]⟩ : WDData).links ∧
    ((["/r/s".toList].erase ("/r/s".toList) = [] ∧
        is_child_of "/a/".toList rootR = false) →
      unwatch_symbolic_link rootR stU 1 "/r/s".toList =
        (stU.set 1 ⟨2, "/a/".toList, []⟩).filter
          (fun x => !(spec_released rootR "/a/".toList
            (spec_referenced_paths (stU.set 1 ⟨2, "/a/".toList, []⟩)
              "/a/".toList) x))) ∧
    unwatch_symbolic_link rootR stU 1 "/r/s".toList =
      [⟨1, rootR, []⟩, ⟨4, "/a/c/".toList, ["/r/t".toList]⟩,
        ⟨5, "/a/c/d/".toList, []⟩] :=
  ⟨by decide, by decide,
    (orphan_reclamation rootR stU 1 ⟨2, "/a/".toList, ["/r/s".toList]⟩
      "/r/s".toList (by decide) (by decide)).2,
    by decide⟩

/-! ### Round trip -/

theorem foldl_process_other {cfg : Config} {fs : FS} {p : Path} :
    ∀ {ds : List DirEnt}, (∀ d ∈ ds, d.ftype = FType.other) →
      ∀ (acc : List WDData × List Path),
        ds.foldl (process_dirent cfg fs p) acc = acc := by
  intro ds
  induction ds with
  | nil => intro _ acc; rfl
  | cons d ds ih =>
    intro hall acc
    have hd : d.ftype = FType.other := hall d (List.mem_cons_self d ds)
    have hstep : process_dirent cfg fs p acc d = acc := by
      unfold process_dirent
      rw [if_neg (by simp [hd]), if_neg (by simp [hd]), if_neg (by simp [hd])]
    simp only [List.foldl_cons, hstep]
    exact ih (fun x hx => hall x (List.mem_cons_of_mem d hx)) acc

theorem get_node_append_last {st : List WDData} {p : Path}
    (h : get_node_from_path st p = none) (w : Nat) :
    get_node_from_path (st ++ [⟨w, p, []⟩]) p = some st.length := by
  induction st with
  | nil => simp [get_node_from_path]
  | cons x xs ih =>
    simp only [get_node_from_path] at h
    by_cases hx : x.path = p
    · rw [if_pos hx] at h; exact Option.noConfusion h
    · rw [if_neg hx] at h
      have hxs : get_node_from_path xs p = none := by
        cases hg : get_node_from_path xs p with
        | none => rfl
        | some j => rw [hg] at h; simp at h
      simp [get_node_from_path, hx, ih hxs]

theorem eraseIdx_concat (xs : List WDData) (a : WDData) :
    (xs ++ [a]).eraseIdx xs.length = xs := by
  induction xs with
  | nil => rfl
  | cons x xs ih => simp [List.eraseIdx, ih]

/-- Claim C8 (counterexample): with recursion enabled and `/r/` containing
a subdirectory `d`, `watch("/r/")` on the empty table registers two
entries, and `unwatch("/r/", FALSE)` removes only the root entry — the
table ends with a leaked `/r/d/` entry instead of returning to empty. -/
theorem round_trip_fails :
    watch cfgOk fsRd 5 [] rootR none =
      WatchOutcome.completed
        [⟨7, rootR, []⟩, ⟨7, rootR ++ "d".toList ++ slashP, []⟩] ∧
    unwatch cfgOk fsRd 0
        [⟨7, rootR, []⟩, ⟨7, rootR ++ "d".toList ++ slashP, []⟩]
        rootR false =
      [⟨7, rootR ++ "d".toList ++ slashP, []⟩] ∧
    [(⟨7, rootR ++ "d".toList ++ slashP, []⟩ : WDData)] ≠ ([] : List WDData) := by
  exact ⟨by decide, by decide, by decide⟩

/-- Claim C8 (amended): `watch(P, None)` immediately followed by
`unwatch(P, false)` restores the previous table when `P` was not already
watched, its registration succeeds, and the traversal of `P` registers
nothing further (its listing holds no subdirectory and no symlink);
without these conditions the round trip can leave a changed table, as the
counterexample shows — `unwatch` removes only the matched entry, so
entries registered by the traversal stay behind. -/
theorem round_trip_restores (cfg : Config) (fs : FS) (n m : Nat)
    (st : List WDData) (p : Path) (w : Nat) (ds : List DirEnt)
    (hp : get_node_from_path st p = none) (hk : cfg.ker p = some w)
    (ho : opendir fs p = some ds) (hall : ∀ d ∈ ds, d.ftype = FType.other) :
    watch cfg fs (n + 1) st p none =
      WatchOutcome.completed (st ++ [⟨w, p, []⟩]) ∧
    unwatch cfg fs m (st ++ [⟨w, p, []⟩]) p false = st := by
  constructor
  · unfold watch
    rw [add_to_watch_list_new hp hk none]
    simp only [watch_loop, ho]
    have hfold : List.foldl (process_dirent cfg fs p)
        (st ++ [(⟨w, p, []⟩ : WDData)], ([] : List Path)) ds =
        (st ++ [(⟨w, p, []⟩ : WDData)], ([] : List Path)) :=
      foldl_process_other hall _
    rw [hfold]
    cases n <;> rfl
  · simp only [unwatch, if_pos rfl]
    rw [get_node_append_last hp w]
    exact eraseIdx_concat st _

/-- Witness for the amended C8: watching and unwatching `/p/` (whose
listing holds only a plain file) over the root-only table is the
identity. -/
theorem round_trip_restores_witness :
    get_node_from_path stW1 pFlat = none ∧ cfgOk.ker pFlat = some 7 ∧
      opendir fsFlat pFlat = some [⟨"f".toList, FType.other⟩] ∧
      (watch cfgOk fsFlat 1 stW1 pFlat none =
          WatchOutcome.completed (stW1 ++ [⟨7, pFlat, []⟩]) ∧
        unwatch cfgOk fsFlat 0 (stW1 ++ [⟨7, pFlat, []⟩]) pFlat false = stW1) :=
  ⟨by decide, by decide, by decide,
    round_trip_restores cfgOk fsFlat 0 0 stW1 pFlat 7 [⟨"f".toList, FType.other⟩]
      (by decide) (by decide) (by decide)
      (by intro d hd; obtain rfl := List.mem_singleton.mp hd; rfl)⟩

/-! ### Cycle that never terminates when registration keeps failing -/

theorem cyc_step_root (n : Nat) :
    watch_loop cfgCyc fsCyc (n + 1) stCyc [rootR] =
      watch_loop cfgCyc fsCyc n stCyc [pX1] := rfl

theorem cyc_step_x1 (n : Nat) :
    watch_loop cfgCyc fsCyc (n + 1) stCyc [pX1] =
      watch_loop cfgCyc fsCyc n stCyc [pX2] := rfl

theorem cyc_step_x2 (n : Nat) :
    watch_loop cfgCyc fsCyc (n + 1) stCyc [pX2] =
      watch_loop cfgCyc fsCyc n stCyc [pX1] := rfl

theorem cyc_never_finishes : ∀ n : Nat,
    runFinished (watch_loop cfgCyc fsCyc n stCyc [pX1]) = false ∧
      runFinished (watch_loop cfgCyc fsCyc n stCyc [pX2]) = false := by
  intro n
  induction n with
  | zero => exact ⟨rfl, rfl⟩
  | succ m ih =>
    rw [cyc_step_x1 m, cyc_step_x2 m]
    exact ⟨ih.2, ih.1⟩

theorem cyc_watch_never_finishes (n : Nat) :
    watchFinished (watch cfgCyc fsCyc n [] rootR none) = false := by
  have hadd : add_to_watch_list cfgCyc [] rootR none = (some 0, stCyc) := by
    decide
  unfold watch
  simp only [hadd]
  cases n with
  | zero => rfl
  | succ m =>
    rw [cyc_step_root m]
    have := (cyc_never_finishes m).1
    cases hr : watch_loop cfgCyc fsCyc m stCyc [pX1] with
    | done st2 => rw [hr] at this; exact Bool.noConfusion this
    | fatalExit st2 => rw [hr] at this; exact Bool.noConfusion this
    | outOfFuel st2 q2 => rfl

/-- Claim C7 (counterexample): on the concrete finite filesystem `fsCyc`
(root with symlink `c -> /x1/`, `/x1/` with `a -> /x2/`, `/x2/` with
`b -> /x1/`) under a kernel that refuses watches for `/x1/` and `/x2/`
(watch limit reached), `watch("/r/")` never terminates: the failed
registrations never record the symlinks, so the traversal bounces between
`/x1/` and `/x2/` forever and no amount of fuel finishes the loop. -/
theorem cycle_traversal_never_terminates :
    ¬ ∃ n : Nat, watchFinished (watch cfgCyc fsCyc n [] rootR none) = true := by
  rintro ⟨n, hn⟩
  rw [cyc_watch_never_finishes n] at hn
  exact Bool.noConfusion hn

/-! ### Termination measure infrastructure -/

theorem countP_le_of_imp {α : Type} (l : List α) (p q : α → Bool)
    (h : ∀ x ∈ l, q x = true → p x = true) : l.countP q ≤ l.countP p := by
  induction l with
  | nil => simp
  | cons a l ih =>
    have ih' := ih (fun x hx => h x (List.mem_cons_of_mem a hx))
    by_cases hq : q a = true
    · have hp : p a = true := h a (List.mem_cons_self a l) hq
      rw [List.countP_cons, List.countP_cons, if_pos hq, if_pos hp]
      omega
    · rw [List.countP_cons, List.countP_cons, if_neg hq]
      have hb : (if p a = true then 1 else 0) ≤ 1 := by split <;> omega
      omega

theorem countP_lt_of_witness {α : Type} (l : List α) (p q : α → Bool)
    (h : ∀ x ∈ l, q x = true → p x = true) (a : α) (ha : a ∈ l)
    (hpa : p a = true) (hqa : q a = false) : l.countP q < l.countP p := by
  induction l with
  | nil => simp at ha
  | cons b l ih =>
    have hrest : ∀ x ∈ l, q x = true → p x = true :=
      fun x hx => h x (List.mem_cons_of_mem b hx)
    rcases List.mem_cons.mp ha with rfl | ha'
    · have hle := countP_le_of_imp l p q hrest
      rw [List.countP_cons, List.countP_cons, if_pos hpa,
        if_neg (by simp [hqa])]
      omega
    · have hlt := ih hrest ha'
      by_cases hq : q b = true
      · have hp := h b (List.mem_cons_self b l) hq
        rw [List.countP_cons, List.countP_cons, if_pos hq, if_pos hp]
        omega
      · rw [List.countP_cons, List.countP_cons, if_neg hq]
        have hb : (if p b = true then 1 else 0) ≤ 1 := by split <;> omega
        omega

theorem unreg_le_of_mono {fs : FS} {st st' : List WDData}
    (h : ∀ x ∈ linkPaths st, x ∈ linkPaths st') :
    unreg fs st' ≤ unreg fs st := by
  refine countP_le_of_imp _ _ _ ?_
  intro x _ hx
  rw [decide_eq_true_eq] at hx ⊢
  intro hmem
  exact hx (h x hmem)

theorem unreg_lt_of_new {fs : FS} {st st' : List WDData} {l : Path}
    (hmono : ∀ x ∈ linkPaths st, x ∈ linkPaths st')
    (hnew : l ∈ linkPaths st') (hold : l ∉ linkPaths st)
    (hsym : l ∈ allSyms fs) : unreg fs st' < unreg fs st := by
  refine countP_lt_of_witness _ _ _ ?_ l hsym (by simpa using hold)
    (by simpa using hnew)
  intro x _ hx
  rw [decide_eq_true_eq] at hx ⊢
  intro hmem
  exact hx (hmono x hmem)

theorem mem_allSyms_aux (p : Path) (ds : List DirEnt) (d : DirEnt)
    (hd : d ∈ ds) (hl : d.ftype = FType.lnk) :
    ∀ (L : List (Path × List DirEnt)), (p, ds) ∈ L →
      p ++ d.name ∈
        L.foldr
          (fun pr acc =>
            ((pr.2.filter (fun x => x.ftype = FType.lnk)).map
              (fun x => pr.1 ++ x.name)) ++ acc)
          [] := by
  intro L
  induction L with
  | nil => intro hmem; simp at hmem
  | cons pr rest ih =>
    intro hmem
    simp only [List.foldr_cons, List.mem_append]
    rcases List.mem_cons.mp hmem with heq | hmem'
    · refine Or.inl ?_
      rw [← heq]
      simp only [List.mem_map, List.mem_filter]
      exact ⟨d, ⟨hd, by simp [hl]⟩, rfl⟩
    · exact Or.inr (ih hmem')

theorem mem_allSyms {fs : FS} {p : Path} {ds : List DirEnt} {d : DirEnt}
    (hmem : (p, ds) ∈ fs.dirs) (hd : d ∈ ds) (hl : d.ftype = FType.lnk) :
    p ++ d.name ∈ allSyms fs :=
  mem_allSyms_aux p ds d hd hl fs.dirs hmem

theorem opendir_mem {fs : FS} {p : Path} {ds : List DirEnt}
    (h : opendir fs p = some ds) : (p, ds) ∈ fs.dirs := by
  unfold opendir at h
  cases hf : fs.dirs.find? (fun pr => pr.1 == p) with
  | none => rw [hf] at h; exact Option.noConfusion h
  | some pr =>
    rw [hf] at h
    have h2 : pr.2 = ds := by simpa using h
    have hmem := List.mem_of_find?_eq_some hf
    have hpred := List.find?_some hf
    have hp : pr.1 = p := by simpa using hpred
    have hpr : pr = (p, ds) := by
      cases pr with
      | mk a b =>
        simp only at hp h2
        rw [hp, h2]
    rwa [hpr] at hmem

theorem key_len_le_aux (p : Path) (ds : List DirEnt) :
    ∀ (L : List (Path × List DirEnt)), (p, ds) ∈ L →
      p.length ≤ L.foldr (fun pr m => max pr.1.length m) 0 := by
  intro L
  induction L with
  | nil => intro h; simp at h
  | cons pr rest ih =>
    intro h
    simp only [List.foldr_cons]
    rcases List.mem_cons.mp h with heq | hmem
    · rw [← heq]; exact le_max_left _ _
    · exact le_trans (ih hmem) (le_max_right _ _)

theorem key_len_le {fs : FS} {p : Path} {ds : List DirEnt}
    (h : (p, ds) ∈ fs.dirs) : p.length ≤ maxKeyLen fs :=
  key_len_le_aux p ds fs.dirs h

theorem fanout_le_aux (p : Path) (ds : List DirEnt) :
    ∀ (L : List (Path × List DirEnt)), (p, ds) ∈ L →
      ds.length ≤ L.foldr (fun pr m => max pr.2.length m) 0 := by
  intro L
  induction L with
  | nil => intro h; simp at h
  | cons pr rest ih =>
    intro h
    simp only [List.foldr_cons]
    rcases List.mem_cons.mp h with heq | hmem
    · rw [← heq]; exact le_max_left _ _
    · exact le_trans (ih hmem) (le_max_right _ _)

theorem fanout_le {fs : FS} {p : Path} {ds : List DirEnt}
    (h : (p, ds) ∈ fs.dirs) : ds.length ≤ maxFanout fs :=
  fanout_le_aux p ds fs.dirs h

theorem qweight_append_single (fs : FS) (q : List Path) (c : Path) :
    qweight fs (q ++ [c]) = qweight fs q + weight fs c := by
  simp [qweight]

theorem qweight_cons (fs : FS) (p : Path) (q : List Path) :
    qweight fs (p :: q) = weight fs p + qweight fs q := by
  simp [qweight]

theorem weight_child_le (fs : FS) {p c : Path}
    (hlen : p.length + 1 ≤ c.length) :
    weight fs c ≤ bigW fs ^ (bigB fs - p.length - 1) := by
  unfold weight
  refine Nat.pow_le_pow_right (by unfold bigW; omega) ?_
  omega

/-! ### One dirent of the traversal either changes nothing, descends one
level, or registers a fresh symlink -/

theorem process_dirent_measure (cfg : Config) (fs : FS) (p : Path)
    (hker : ∀ x, (cfg.ker x).isSome = true)
    {ds0 : List DirEnt} (hmem : (p, ds0) ∈ fs.dirs) (d : DirEnt)
    (hd : d ∈ ds0) (acc : List WDData × List Path) :
    (∀ x ∈ linkPaths acc.1, x ∈ linkPaths (process_dirent cfg fs p acc d).1) ∧
    (((process_dirent cfg fs p acc d).2 = acc.2 ∧
        unreg fs (process_dirent cfg fs p acc d).1 ≤ unreg fs acc.1) ∨
      (∃ c, (process_dirent cfg fs p acc d).2 = acc.2 ++ [c] ∧
        p.length + 1 ≤ c.length ∧
        unreg fs (process_dirent cfg fs p acc d).1 ≤ unreg fs acc.1) ∨
      unreg fs (process_dirent cfg fs p acc d).1 < unreg fs acc.1) := by
  unfold process_dirent
  by_cases h1 : d.ftype = FType.dir ∧ cfg.excluded d.name = true
  · rw [if_pos h1]
    exact ⟨fun x hx => hx, Or.inl ⟨rfl, le_refl _⟩⟩
  · rw [if_neg h1]
    by_cases h2 : d.ftype = FType.dir ∧ d.name ≠ dotP ∧ d.name ≠ dotdotP
    · rw [if_pos h2]
      by_cases h3 : cfg.recursive_flag = true
      · rw [if_pos h3]
        refine ⟨fun x hx => linkPaths_add_mono hx,
          Or.inr (Or.inl ⟨p ++ d.name ++ slashP, rfl, ?_,
            unreg_le_of_mono (fun x hx => linkPaths_add_mono hx)⟩)⟩
        simp only [List.length_append]
        have : slashP.length = 1 := rfl
        omega
      · rw [if_neg h3]
        exact ⟨fun x hx => hx, Or.inl ⟨rfl, le_refl _⟩⟩
    · rw [if_neg h2]
      by_cases h4 : d.ftype = FType.lnk ∧ cfg.nosymlink_flag = false
      · rw [if_pos h4]
        by_cases h5 : (get_link_data_from_path acc.1 (p ++ d.name)).isSome = true
        · rw [if_pos h5]
          exact ⟨fun x hx => hx, Or.inl ⟨rfl, le_refl _⟩⟩
        · rw [if_neg h5]
          cases hres : fs.resolve (p ++ d.name) with
          | none => exact ⟨fun x hx => hx, Or.inl ⟨rfl, le_refl _⟩⟩
          | some real =>
            simp only []
            cases hod : opendir fs real with
            | none => exact ⟨fun x hx => hx, Or.inl ⟨rfl, le_refl _⟩⟩
            | some ds2 =>
              simp only []
              by_cases h6 : cfg.recursive_flag = true
              · rw [if_pos h6]
                have hold : (p ++ d.name) ∉ linkPaths acc.1 := by
                  refine get_link_data_from_path_eq_none.mp ?_
                  cases hg : get_link_data_from_path acc.1 (p ++ d.name) with
                  | none => rfl
                  | some z => rw [hg] at h5; simp at h5
                refine ⟨fun x hx => linkPaths_add_mono hx, Or.inr (Or.inr ?_)⟩
                exact unreg_lt_of_new (fun x hx => linkPaths_add_mono hx)
                  (linkPaths_add_some hker) hold (mem_allSyms hmem hd h4.1)
              · rw [if_neg h6]
                exact ⟨fun x hx => hx, Or.inl ⟨rfl, le_refl _⟩⟩
      · rw [if_neg h4]
        exact ⟨fun x hx => hx, Or.inl ⟨rfl, le_refl _⟩⟩

theorem foldl_process_measure (cfg : Config) (fs : FS) (p : Path)
    (hker : ∀ x, (cfg.ker x).isSome = true)
    {ds0 : List DirEnt} (hmem : (p, ds0) ∈ fs.dirs) :
    ∀ (ds : List DirEnt), (∀ d ∈ ds, d ∈ ds0) →
      ∀ (acc : List WDData × List Path),
      unreg fs ((ds.foldl (process_dirent cfg fs p) acc).1) ≤ unreg fs acc.1 ∧
      (unreg fs ((ds.foldl (process_dirent cfg fs p) acc).1) < unreg fs acc.1 ∨
        qweight fs ((ds.foldl (process_dirent cfg fs p) acc).2) ≤
          qweight fs acc.2 +
            ds.length * bigW fs ^ (bigB fs - p.length - 1)) := by
  intro ds
  induction ds with
  | nil =>
    intro _ acc
    exact ⟨le_refl _, Or.inr (by simp)⟩
  | cons d ds ih =>
    intro hsub acc
    have hdm := process_dirent_measure cfg fs p hker hmem d
      (hsub d (List.mem_cons_self d ds)) acc
    obtain ⟨hmono, hcase⟩ := hdm
    have hle1 : unreg fs (process_dirent cfg fs p acc d).1 ≤ unreg fs acc.1 :=
      unreg_le_of_mono hmono
    have ih' := ih (fun x hx => hsub x (List.mem_cons_of_mem d hx))
      (process_dirent cfg fs p acc d)
    obtain ⟨hle2, hdisj2⟩ := ih'
    simp only [List.foldl_cons]
    refine ⟨le_trans hle2 hle1, ?_⟩
    have hsm : (ds.length + 1) * bigW fs ^ (bigB fs - p.length - 1) =
        ds.length * bigW fs ^ (bigB fs - p.length - 1) +
          bigW fs ^ (bigB fs - p.length - 1) :=
      Nat.succ_mul _ _
    rcases hdisj2 with hlt2 | hqw2
    · exact Or.inl (lt_of_lt_of_le hlt2 hle1)
    · rcases hcase with ⟨hq, _⟩ | ⟨c, hq, hclen, _⟩ | hlt1
      · refine Or.inr ?_
        rw [hq] at hqw2
        simp only [List.length_cons, hsm]
        omega
      · refine Or.inr ?_
        rw [hq, qweight_append_single] at hqw2
        have hwc : weight fs c ≤ bigW fs ^ (bigB fs - p.length - 1) :=
          weight_child_le fs hclen
        simp only [List.length_cons, hsm]
        omega
      · exact Or.inl (lt_of_le_of_lt hle2 hlt1)

theorem watch_loop_step_measure (cfg : Config) (fs : FS)
    (hker : ∀ x, (cfg.ker x).isSome = true) {p : Path} {ds : List DirEnt}
    (ho : opendir fs p = some ds) (st : List WDData) (q : List Path) :
    unreg fs ((ds.foldl (process_dirent cfg fs p) (st, q)).1) < unreg fs st ∨
      (unreg fs ((ds.foldl (process_dirent cfg fs p) (st, q)).1) ≤
          unreg fs st ∧
        qweight fs ((ds.foldl (process_dirent cfg fs p) (st, q)).2) <
          qweight fs (p :: q)) := by
  have hmem := opendir_mem ho
  obtain ⟨hle, hdisj⟩ :=
    foldl_process_measure cfg fs p hker hmem ds (fun d hd => hd) (st, q)
  rcases hdisj with hlt | hqw
  · exact Or.inl hlt
  · have hle2 : unreg fs ((ds.foldl (process_dirent cfg fs p) (st, q)).1) ≤
        unreg fs st := hle
    have hqw2 : qweight fs ((ds.foldl (process_dirent cfg fs p) (st, q)).2) ≤
        qweight fs q + ds.length * bigW fs ^ (bigB fs - p.length - 1) := hqw
    refine Or.inr ⟨hle2, ?_⟩
    have hkey : p.length ≤ maxKeyLen fs := key_len_le hmem
    have hfan : ds.length ≤ maxFanout fs := fanout_le hmem
    rw [qweight_cons]
    have hBp : bigB fs - p.length - 1 + 1 = bigB fs - p.length := by
      unfold bigB
      omega
    have hW1pos : 0 < bigW fs ^ (bigB fs - p.length - 1) :=
      pow_pos (by unfold bigW; omega) _
    have hlt2 : ds.length * bigW fs ^ (bigB fs - p.length - 1) <
        weight fs p := by
      unfold weight
      rw [← hBp, pow_succ]
      have hdlt : ds.length < bigW fs := by unfold bigW; omega
      calc ds.length * bigW fs ^ (bigB fs - p.length - 1)
          < bigW fs * bigW fs ^ (bigB fs - p.length - 1) :=
            Nat.mul_lt_mul_of_pos_right hdlt hW1pos
        _ = bigW fs ^ (bigB fs - p.length - 1) * bigW fs := Nat.mul_comm _ _
    omega

theorem watch_loop_terminates (cfg : Config) (fs : FS)
    (hker : ∀ x, (cfg.ker x).isSome = true) :
    ∀ (st : List WDData) (q : List Path),
      ∃ n, runFinished (watch_loop cfg fs n st q) = true := by
  have main : ∀ u w : Nat, ∀ (st : List WDData) (q : List Path),
      unreg fs st < u → qweight fs q < w →
      ∃ n, runFinished (watch_loop cfg fs n st q) = true := by
    intro u
    induction u with
    | zero =>
      intro w st q hu _
      exact absurd hu (Nat.not_lt_zero _)
    | succ u ihu =>
      intro w
      induction w with
      | zero =>
        intro st q _ hw
        exact absurd hw (Nat.not_lt_zero _)
      | succ w ihw =>
        intro st q hu hw
        cases q with
        | nil => exact ⟨0, by simp [watch_loop, runFinished]⟩
        | cons p q2 =>
          cases ho : opendir fs p with
          | none => exact ⟨1, by simp [watch_loop, ho, runFinished]⟩
          | some ds =>
            rcases watch_loop_step_measure cfg fs hker ho st q2 with
              hlt | ⟨hle, hql⟩
            · obtain ⟨n, hn⟩ := ihu
                (qweight fs ((ds.foldl (process_dirent cfg fs p) (st, q2)).2) + 1)
                ((ds.foldl (process_dirent cfg fs p) (st, q2)).1)
                ((ds.foldl (process_dirent cfg fs p) (st, q2)).2)
                (by omega) (Nat.lt_succ_self _)
              exact ⟨n + 1, by simpa [watch_loop, ho] using hn⟩
            · obtain ⟨n, hn⟩ := ihw
                ((ds.foldl (process_dirent cfg fs p) (st, q2)).1)
                ((ds.foldl (process_dirent cfg fs p) (st, q2)).2)
                (by omega) (by omega)
              exact ⟨n + 1, by simpa [watch_loop, ho] using hn⟩
  intro st q
  exact main (unreg fs st + 1) (qweight fs q + 1) st q
    (Nat.lt_succ_self _) (Nat.lt_succ_self _)

theorem add_isSome (cfg : Config) (st : List WDData) (p : Path)
    (sym : Option Path) (hker : ∀ x, (cfg.ker x).isSome = true) :
    ((add_to_watch_list cfg st p sym).1).isSome = true := by
  cases hg : get_node_from_path st p with
  | some i => cases sym <;> simp [add_to_watch_list, hg]
  | none =>
    cases hk : cfg.ker p with
    | none =>
      have := hker p
      rw [hk] at this
      simp at this
    | some wd => cases sym <;> simp [add_to_watch_list, hg, hk]

/-- Claim C7 (amended): for every finite modelled filesystem — including
ones whose symlinks resolve to an ancestor of themselves or to themselves
— `watch` halts after finitely many loop iterations, provided the kernel
grants every watch registration: some fuel makes the loop finish (the
work queue is exhausted, or the traversal aborts on an unopenable
directory).  Without that proviso persistently failing registrations can
cycle forever (see the counterexample). -/
theorem watch_terminates (cfg : Config) (fs : FS)
    (hker : ∀ x, (cfg.ker x).isSome = true) (st : List WDData) (p : Path)
    (sym : Option Path) :
    ∃ n, watchFinished (watch cfg fs n st p sym) = true := by
  obtain ⟨n, hn⟩ :=
    watch_loop_terminates cfg fs hker (add_to_watch_list cfg st p sym).2 [p]
  refine ⟨n, ?_⟩
  unfold watch
  cases ha : add_to_watch_list cfg st p sym with
  | mk node st1 =>
    cases node with
    | none =>
      have hs := add_isSome cfg st p sym hker
      rw [ha] at hs
      simp at hs
    | some i =>
      simp only []
      rw [ha] at hn
      simp only [] at hn
      cases hr : watch_loop cfg fs n st1 [p] with
      | done st2 => rfl
      | fatalExit st2 => rfl
      | outOfFuel st2 qq =>
        rw [hr] at hn
        exact absurd hn (by simp [runFinished])

/-- Witness for the amended C7: with an always-granting kernel, `watch`
terminates even on the cyclic symlink filesystem `fsCyc`. -/
theorem watch_terminates_witness :
    (∀ x, ((cfgOk.ker x).isSome = true)) ∧
      ∃ n, watchFinished (watch cfgOk fsCyc n [] rootR none) = true :=
  ⟨fun _ => rfl, watch_terminates cfgOk fsCyc (fun _ => rfl) [] rootR none⟩

end Cwatch
